import Mathlib

/-!
Verification of the `thoth` voice-transcription bot against its specification.

Shallow embedding, translated from the source:
  * `src/utils/utils.py`  : `split_string` (generator version), `detect_silence`
  * `src/bob_bot.py`      : `split_string` (list version), the `stt` handler

Strings are embedded as `List Char`; numpy float samples as `ℚ`; Python
exceptions as `Except String` / `Option String`.
-/

namespace Thoth

/-- Whitespace test used by Python's `str.split()` (restricted to the ASCII
whitespace characters that can occur in the transcripts handled here). -/
def isWs (c : Char) : Bool :=
  c == ' ' || c == '\t' || c == '\n' || c == '\r'

/-- Embedding of Python's `str.split()` with no separator argument: split on
runs of whitespace, discarding empty pieces (leading/trailing whitespace
produces no words). -/
def pySplit : List Char → List (List Char)
  | [] => []
  | c :: cs =>
    if isWs c then pySplit cs
    else (c :: cs.takeWhile (fun d => !isWs d)) :: pySplit (cs.dropWhile (fun d => !isWs d))
termination_by s => s.length
decreasing_by
  · simp only [List.length_cons]; omega
  · have h : (cs.dropWhile (fun d => !isWs d)).length ≤ cs.length :=
      (List.dropWhile_sublist (fun d => !isWs d)).length_le
    simp only [List.length_cons]; omega

/-- The word-accumulation loop of `split_string` in `src/bob_bot.py`
(lines 58-67): iterate over the words; when adding the next word (plus a
joining space) would push the current piece past 4096 characters, emit the
current piece and restart from the word; otherwise append `" " + word` to the
current piece.  The final piece is always emitted. -/
def splitLoop : List (List Char) → List Char → List (List Char)
  | [], current => [current]
  | w :: ws, current =>
    if current.length + w.length + 1 > 4096 then
      current :: splitLoop ws w
    else
      splitLoop ws (current ++ ' ' :: w)

/-- `split_string` from `src/bob_bot.py` (lines 49-68): a string shorter than
4096 characters is returned as the single piece; otherwise the string is split
into whitespace-delimited words and re-joined greedily by `splitLoop`. -/
def split_string (s : List Char) : List (List Char) :=
  if s.length < 4096 then [s]
  else splitLoop (pySplit s) []

/-- The word-accumulation loop of the generator `split_string` in
`src/utils/utils.py` (lines 18-26); the overflow test there is
`len(current_string) + len(word) > 4095`. -/
def utilsLoop : List (List Char) → List Char → List (List Char)
  | [], current => [current]
  | w :: ws, current =>
    if current.length + w.length > 4095 then
      current :: utilsLoop ws w
    else
      utilsLoop ws (current ++ ' ' :: w)

/-- `split_string` from `src/utils/utils.py` (lines 9-26), with the sequence
of yielded values collected into a list. -/
def split_string_utils (s : List Char) : List (List Char) :=
  if s.length < 4096 then [s]
  else utilsLoop (pySplit s) []

/-- Concatenation of the output pieces with single spaces
(Python `" ".join(...)`). -/
def sjoin : List (List Char) → List Char
  | [] => []
  | [w] => w
  | w :: ws => w ++ ' ' :: sjoin ws

/-- Collapse every maximal run of whitespace characters to a single space;
all other characters are kept unchanged. -/
def collapseWs : List Char → List Char
  | [] => []
  | c :: cs =>
    if isWs c then ' ' :: collapseWs (cs.dropWhile isWs)
    else c :: collapseWs cs
termination_by s => s.length
decreasing_by
  · have h : (cs.dropWhile isWs).length ≤ cs.length :=
      (List.dropWhile_sublist isWs).length_le
    simp only [List.length_cons]; omega
  · simp only [List.length_cons]; omega

/-- The window energies of `detect_silence` (`src/utils/utils.py` lines 64-65):
for `s in range(0, len(audio), int(sr))`, the sum of absolute sample values of
the slice `audio[s : s + int(sr)]` (embedded as `(audio.drop s).take sr`).
Python's `range(0, stop, step)` for `step ≥ 1` is the arithmetic progression
`0, step, 2*step, ...` with `⌈stop / step⌉` elements, embedded with
`List.range'`.  Each window therefore spans `sr` samples, i.e. one second of
audio (the final window may be shorter). -/
def absWindowSums (audio : List ℚ) (sr : Nat) : List ℚ :=
  (List.range' 0 ((audio.length + sr - 1) / sr) sr).map
    fun s => (((audio.drop s).take sr).map (fun x => |x|)).sum

/-- The trailing-silence count of `detect_silence` (`src/utils/utils.py`
lines 67-74): reverse the window energies and count the initial run of
windows strictly below the threshold, stopping at the first loud window. -/
def trailingSilent (sums : List ℚ) (threshold : ℚ) : Nat :=
  (sums.reverse.takeWhile (fun s => decide (s < threshold))).length

/-- `detect_silence` from `src/utils/utils.py` (lines 48-78).  Returns the
pair `(count, duration_in_seconds)`.  `librosa.get_duration(y=audio, sr=sr)`
is the number of samples divided by the sample rate (the code multiplies by
1000 and divides the result by 1000 again, which cancels); a zero sample rate
makes both `get_duration` and the `range` step fail, re-raised by the
`except` clause, hence the error case. -/
def detect_silence (audio : List ℚ) (sr : Nat) (threshold : ℚ := 70) :
    Except String (Nat × ℚ) :=
  if sr = 0 then Except.error "invalid sample rate"
  else Except.ok (trailingSilent (absWindowSums audio sr) threshold,
                  (audio.length : ℚ) / (sr : ℚ))

/-- The detector's window duration in seconds: each window spans `sr` samples
at `sr` samples per second (the docstring of `detect_silence` says half
seconds, but the stride of its loop is `int(sr)` samples, i.e. one second). -/
def windowSizeSeconds : ℚ := 1

/-- Round a rational to the nearest integer, ties to the even integer — the
rounding IEEE-754 applies to the scaled significand. -/
def roundNE (x : ℚ) : ℤ :=
  if Int.fract x < 1 / 2 then ⌊x⌋
  else if 1 / 2 < Int.fract x then ⌊x⌋ + 1
  else if ⌊x⌋ % 2 = 0 then ⌊x⌋ else ⌊x⌋ + 1

/-- The correctly rounded IEEE-754 binary64 value of a positive rational
(round to nearest, ties to even, 53-bit significand): the rational is scaled
by a power of two into `[2^52, 2^53)`, rounded to an integer with ties to
even, and scaled back.  The exponent range is unbounded, so this agrees with
real binary64 arithmetic on every normal, non-overflowing magnitude — in
particular on all values `i / n` and `(i / n) * 100` with `1 ≤ i ≤ n` that
arise below (a subnormal would need `n ≥ 2^1022`). -/
def fl64 (q : ℚ) : ℚ :=
  if q ≤ 0 then 0
  else (roundNE (q / 2 ^ (Int.log 2 q - 52)) : ℚ) * 2 ^ (Int.log 2 q - 52)

/-- The progress percentage computed by `stt` (`src/bob_bot.py` line 132):
`int((i / n) * 100)` evaluated in IEEE binary64 floating point — the
division and the multiplication by 100 are each correctly rounded, then
`int()` truncates toward zero (the value is nonnegative, so truncation is
the floor).  The integer operands themselves convert to binary64 exactly for
every chunk count below `2^53`.  E.g. `pyPct 29 100 = 28` while the exact
floor is 29, because `29/100 * 100` computes to just below 29 in binary64. -/
def pyPct (i n : Nat) : Nat :=
  (⌊fl64 (fl64 ((i : ℚ) / (n : ℚ)) * 100)⌋).toNat

/-- A user-visible action of the `stt` handler, in delivery order:
the initial progress message (`reply_text("Processing data: 0%")`), a
successful progress edit (`edit_message_text`), the deletion of the progress
message, one transcript piece (`reply_text(msg)`), or the error message sent
by the `except` clause (`reply_text(str(e))`). -/
inductive Event where
  | progressStart (pct : Nat)
  | progressEdit (pct : Nat)
  | progressDelete
  | transcriptPiece (p : List Char)
  | errorMsg (e : String)
deriving DecidableEq

/-- The external collaborators of one `stt` request.  Each field gives the
outcome of one kind of external call: `none`/`.ok` means the awaited call
succeeds, `some e`/`.error e` means it raises a Python exception with
description `e`.

`getChunks` abstracts `whisper.get_chunks(audio, sr)`; the chunker lives in
`inference_model`, which is not part of the sources, so it is abstracted to
the number of chunks it returns (per the spec's Chunker contract the chunk
list and the returned count agree), and `transcribe i` gives the text the
model produces for chunk `i`. -/
structure Env where
  /-- `download_to_drive` and `librosa.load` (lines 98-99) succeed. -/
  downloadOk : Bool
  /-- result of `whisper.get_chunks(audio, sr)` (line 102): the chunk count. -/
  getChunks : Except String Nat
  /-- result of transcribing chunk `i` (lines 113-129). -/
  transcribe : Nat → Except String (List Char)
  /-- exception raised by `edit_message_text` after chunk `i` (lines 134-138),
  if any. -/
  editErr : Nat → Option String
  /-- exception raised by the initial `reply_text` (lines 108-110), if any. -/
  startErr : Option String
  /-- exception raised by `delete_message` (lines 141-144), if any. -/
  deleteErr : Option String
  /-- exception raised by `reply_text` on the `k`-th transcript piece
  (line 149), if any. -/
  pieceErr : Nat → Option String
  /-- the `reply_text(str(e))` in the `except` clause (line 153) succeeds. -/
  finalReplyOk : Bool

/-- The per-chunk loop of `stt` (`src/bob_bot.py` lines 111-138), iterating
over the chunk indices (`enumerate(track(chunks, ...))`).  For each chunk:
transcribe it (any model exception aborts the loop), append the text to the
accumulated transcript, then edit the progress message to
`int((i + 1) / num_chunks * 100)` percent (an exception from the edit aborts
the loop too, since the edit sits inside the handler's `try`).  Returns the
events delivered by the loop and either the final transcript or the
exception that escaped. -/
def sttLoop (env : Env) (n : Nat) :
    List Nat → List Char → List Event × Except String (List Char)
  | [], acc => ([], Except.ok acc)
  | i :: rest, acc =>
    match env.transcribe i with
    | Except.error e => ([], Except.error e)
    | Except.ok t =>
      match env.editErr i with
      | some e => ([], Except.error e)
      | none =>
        let r := sttLoop env n rest (acc ++ t)
        (Event.progressEdit (pyPct (i + 1) n) :: r.1, r.2)

/-- Delivery of the transcript pieces (`src/bob_bot.py` lines 146-149): send
each piece of `split_string(decoded_message)` in order; an exception from
`reply_text` aborts the remaining sends. -/
def deliverPieces (env : Env) : List (List Char) → Nat → List Event × Option String
  | [], _ => ([], none)
  | p :: ps, k =>
    match env.pieceErr k with
    | some e => ([], some e)
    | none =>
      let r := deliverPieces env ps (k + 1)
      (Event.transcriptPiece p :: r.1, r.2)

/-- The body of the `try` block of `stt` (`src/bob_bot.py` lines 101-149):
get the chunks, send the initial progress message, run the per-chunk loop,
delete the progress message, split the transcript and deliver the pieces.
Returns the events delivered inside the `try` and the exception that reached
the `except` clause, if any. -/
def sttTry (env : Env) : List Event × Option String :=
  match env.getChunks with
  | Except.error e => ([], some e)
  | Except.ok n =>
    match env.startErr with
    | some e => ([], some e)
    | none =>
      let r := sttLoop env n (List.range n) []
      match r.2 with
      | Except.error e => (Event.progressStart 0 :: r.1, some e)
      | Except.ok transcript =>
        match env.deleteErr with
        | some e => (Event.progressStart 0 :: r.1, some e)
        | none =>
          let d := deliverPieces env (split_string transcript) 0
          (Event.progressStart 0 :: r.1 ++ Event.progressDelete :: d.1, d.2)

/-- The `stt` handler (`src/bob_bot.py` lines 90-153), as the list of
user-visible actions it delivers.  The download and `librosa.load` (lines
93-99) sit before the `try` block, so an exception there propagates out of
the handler and nothing is delivered.  An exception inside the `try` is
caught by the `except` clause, which logs it and sends `str(e)` as a message
(if that send itself succeeds). -/
def stt (env : Env) : List Event :=
  if env.downloadOk then
    match (sttTry env).2 with
    | none => (sttTry env).1
    | some e =>
      (sttTry env).1 ++ (if env.finalReplyOk then [Event.errorMsg e] else [])
  else []

/-- Is the event a user-visible error message? -/
def isErrorMsg : Event → Bool
  | Event.errorMsg _ => true
  | _ => false

/-- Is the event a delivered transcript piece? -/
def isPiece : Event → Bool
  | Event.transcriptPiece _ => true
  | _ => false

/-- Number of user-visible error messages among the delivered events. -/
def countErrors (evs : List Event) : Nat := evs.countP isErrorMsg

/-- Number of transcript pieces among the delivered events. -/
def countPieces (evs : List Event) : Nat := evs.countP isPiece

/-- The successful progress-edit percentages among the delivered events, in
delivery order. -/
def editPcts (evs : List Event) : List Nat :=
  evs.filterMap fun e =>
    match e with
    | Event.progressEdit p => some p
    | _ => none

/-- Modelled from the spec: `round((chunks_done / total_chunks) * 100)`
(spec section 3, ProgressState), rounding to the nearest integer, halves up.
Used only to compare the spec's formula with the code's. -/
def specRound (i n : Nat) : Nat := (i * 200 + n) / (2 * n)

/-- Modelled from the spec/librosa documentation: `librosa.load` resamples to
the requested rate when `sr=` is passed and to the library default of
22050 Hz otherwise. -/
def librosaLoadRate (requested : Option Nat) : Nat := requested.getD 22050

/-- The decode call of the `stt` handler, `librosa.load(file_path)`
(`src/bob_bot.py` line 99), passes no target sample rate. -/
def sttDecodeRequest : Option Nat := none

/-- The `new_sample_rate` the whisper model is constructed with
(`src/bob_bot.py` line 46). -/
def new_sample_rate : Nat := 16000

/-- A short transcript used as a concrete witness input. -/
def charsHi : List Char := ['h', 'i']

/-- A 4096-character transcript consisting of a single word. -/
def chars4096 : List Char := List.replicate 4096 'a'

/-- An environment in which every external call succeeds: `n` chunks, each
transcribed to `"x"`. -/
def okEnv (n : Nat) : Env :=
  ⟨true, Except.ok n, fun _ => Except.ok ['x'], fun _ => none, none, none,
   fun _ => none, true⟩

/-- An environment in which the voice-message download fails. -/
def envDownloadFail : Env :=
  ⟨false, Except.ok 1, fun _ => Except.ok ['x'], fun _ => none, none, none,
   fun _ => none, true⟩

/-- An environment in which `whisper.get_chunks` raises. -/
def envChunkFail : Env :=
  ⟨true, Except.error "chunking failed", fun _ => Except.ok ['x'], fun _ => none,
   none, none, fun _ => none, true⟩

/-- An environment with one chunk whose transcription succeeds but whose
progress-message edit raises. -/
def envEditFail : Env :=
  ⟨true, Except.ok 1, fun _ => Except.ok ['h', 'i'], fun _ => some "edit failed",
   none, none, fun _ => none, true⟩

/-! ## Lemmas about `pySplit` -/

theorem takeWhile_append_neg {p : Char → Bool} {y : Char} (xs ys : List Char)
    (h : p y = false) : (xs ++ y :: ys).takeWhile p = xs.takeWhile p := by
  induction xs with
  | nil => simp [List.takeWhile_cons, h]
  | cons a as ih =>
    by_cases ha : p a
    · simp [List.takeWhile_cons, ha, ih]
    · simp [List.takeWhile_cons, ha]

theorem dropWhile_append_neg {p : Char → Bool} {y : Char} (xs ys : List Char)
    (h : p y = false) : (xs ++ y :: ys).dropWhile p = xs.dropWhile p ++ y :: ys := by
  induction xs with
  | nil => simp [List.dropWhile_cons, h]
  | cons a as ih =>
    by_cases ha : p a
    · simp [List.dropWhile_cons, ha, ih]
    · simp [List.dropWhile_cons, ha]

/-- Splitting on whitespace distributes over concatenation with a space. -/
theorem pySplit_append_space (a b : List Char) :
    pySplit (a ++ ' ' :: b) = pySplit a ++ pySplit b := by
  have hsp : isWs ' ' = true := by decide
  induction a using pySplit.induct with
  | case1 => rw [List.nil_append]; simp [pySplit, hsp]
  | case2 c cs h ih =>
    rw [List.cons_append]
    simp only [pySplit, h, if_true, ih]
  | case3 c cs h ih =>
    rw [List.cons_append]
    have hq : (fun d => !isWs d) ' ' = false := by decide
    rw [pySplit, pySplit]
    simp only [h, if_false, reduceIte]
    rw [takeWhile_append_neg cs b hq, dropWhile_append_neg cs b hq, ih]
    simp

/-- Every output of `pySplit` is a nonempty run of non-whitespace characters. -/
theorem pySplit_good {s : List Char} :
    ∀ w ∈ pySplit s, w ≠ [] ∧ ∀ c ∈ w, isWs c = false := by
  induction s using pySplit.induct with
  | case1 => simp [pySplit]
  | case2 c cs h ih => simpa [pySplit, h] using ih
  | case3 c cs h ih =>
    intro w hw
    rw [pySplit, if_neg h] at hw
    rcases List.mem_cons.mp hw with hw | hw
    · subst hw
      refine ⟨by simp, ?_⟩
      intro d hd
      rcases List.mem_cons.mp hd with rfl | hd
      · simpa using h
      · have := List.mem_takeWhile_imp hd
        simpa using this
    · exact ih w hw

/-- A single nonempty whitespace-free word splits to itself. -/
theorem pySplit_word {w : List Char} (h1 : w ≠ []) (h2 : ∀ c ∈ w, isWs c = false) :
    pySplit w = [w] := by
  obtain ⟨c, cs, rfl⟩ := List.exists_cons_of_ne_nil h1
  have hc : isWs c = false := h2 c (by simp)
  rw [pySplit, if_neg (by simp [hc])]
  have ht : cs.takeWhile (fun d => !isWs d) = cs :=
    List.takeWhile_eq_self_iff.mpr (fun x hx => by simp [h2 x (by simp [hx])])
  have hd : cs.dropWhile (fun d => !isWs d) = [] :=
    List.dropWhile_eq_nil_iff.mpr (fun x hx => by simp [h2 x (by simp [hx])])
  rw [ht, hd]
  simp [pySplit]

/-! ## Lemmas about the word-accumulation loops -/

/-- The two accumulation loops agree: the overflow tests
`len + len(word) + 1 > 4096` and `len + len(word) > 4095` are the same
comparison on naturals. -/
theorem splitLoop_eq_utilsLoop : ∀ (ws : List (List Char)) (current : List Char),
    splitLoop ws current = utilsLoop ws current := by
  intro ws
  induction ws with
  | nil => intro c; rfl
  | cons w ws ih =>
    intro c
    rw [splitLoop, utilsLoop]
    by_cases h : c.length + w.length + 1 > 4096
    · rw [if_pos h, if_pos (by omega), ih]
    · rw [if_neg h, if_neg (by omega), ih]

/-- Length invariant of the loop: if every remaining word has length at most
4096 and the piece under construction has length at most 4096, every emitted
piece has length at most 4096. -/
theorem splitLoop_length : ∀ (ws : List (List Char)) (current : List Char),
    (∀ w ∈ ws, w.length ≤ 4096) → current.length ≤ 4096 →
    ∀ out ∈ splitLoop ws current, out.length ≤ 4096 := by
  intro ws
  induction ws with
  | nil =>
    intro current _ hc out hout
    rw [splitLoop] at hout
    simp at hout
    subst hout
    exact hc
  | cons w ws ih =>
    intro current hws hc out hout
    rw [splitLoop] at hout
    by_cases hcond : current.length + w.length + 1 > 4096
    · rw [if_pos hcond] at hout
      rcases List.mem_cons.mp hout with rfl | hout
      · exact hc
      · exact ih w (fun w' hw' => hws w' (by simp [hw'])) (hws w (by simp)) out hout
    · rw [if_neg hcond] at hout
      refine ih _ (fun w' hw' => hws w' (by simp [hw'])) ?_ out hout
      simp only [List.length_append, List.length_cons]
      omega

/-- Word-preservation invariant of the loop: the words of the emitted pieces,
in order, are the words of the piece under construction followed by the
remaining words. -/
theorem splitLoop_words : ∀ (ws : List (List Char)) (current : List Char),
    (∀ w ∈ ws, w ≠ [] ∧ ∀ c ∈ w, isWs c = false) →
    (splitLoop ws current).flatMap pySplit = pySplit current ++ ws := by
  intro ws
  induction ws with
  | nil => intro current _; simp [splitLoop]
  | cons w ws ih =>
    intro current h
    have hw := h w (by simp)
    have hws : ∀ w' ∈ ws, w' ≠ [] ∧ ∀ c ∈ w', isWs c = false :=
      fun w' hw' => h w' (by simp [hw'])
    rw [splitLoop]
    by_cases hcond : current.length + w.length + 1 > 4096
    · rw [if_pos hcond]
      rw [List.flatMap_cons, ih w hws, pySplit_word hw.1 hw.2]
      simp
    · rw [if_neg hcond]
      rw [ih _ hws, pySplit_append_space, pySplit_word hw.1 hw.2]
      simp

/-- Splitting the space-joined pieces recovers the words of each piece. -/
theorem pySplit_sjoin : ∀ outs : List (List Char),
    pySplit (sjoin outs) = outs.flatMap pySplit := by
  intro outs
  induction outs with
  | nil => simp [sjoin, pySplit]
  | cons o os ih =>
    cases os with
    | nil => simp [sjoin]
    | cons o2 os2 =>
      have hs : sjoin (o :: o2 :: os2) = o ++ ' ' :: sjoin (o2 :: os2) := rfl
      rw [hs, pySplit_append_space, ih]
      simp

/-! ## Concrete computations on the 4096-character single-word input -/

theorem chars4096_ne_nil : chars4096 ≠ [] := by
  intro h
  have hl := congrArg List.length h
  simp only [chars4096, List.length_replicate, List.length_nil] at hl
  omega

theorem chars4096_no_ws : ∀ c ∈ chars4096, isWs c = false := by
  intro c hc
  have hca : c = 'a' := List.eq_of_mem_replicate hc
  subst hca
  decide

theorem pySplit_nil : pySplit [] = [] := by
  simp [pySplit]

theorem pySplit_chars4096 : pySplit chars4096 = [chars4096] :=
  pySplit_word chars4096_ne_nil chars4096_no_ws

theorem split_string_chars4096 : split_string chars4096 = [[], chars4096] := by
  have hlen : chars4096.length = 4096 := by
    simp only [chars4096, List.length_replicate]
  rw [split_string, if_neg (by omega), pySplit_chars4096, splitLoop,
    if_pos (by simp only [List.length_nil]; omega), splitLoop]

theorem dropWhile_no_ws (s : List Char) (h : ∀ c ∈ s, isWs c = false) :
    s.dropWhile isWs = s := by
  cases s with
  | nil => rfl
  | cons c cs => rw [List.dropWhile_cons_of_neg (by simp [h c (by simp)])]

theorem collapseWs_no_ws : ∀ s : List Char, (∀ c ∈ s, isWs c = false) →
    collapseWs s = s := by
  intro s
  induction s using collapseWs.induct with
  | case1 => intro _; simp [collapseWs]
  | case2 c cs h ih => intro hall; exact absurd (hall c (by simp)) (by simp [h])
  | case3 c cs h ih =>
    intro hall
    rw [collapseWs, if_neg h, ih (fun d hd => hall d (by simp [hd]))]

theorem collapseWs_sp_chars4096 :
    collapseWs (' ' :: chars4096) = ' ' :: chars4096 := by
  rw [collapseWs, if_pos (by decide), dropWhile_no_ws chars4096 chars4096_no_ws,
    collapseWs_no_ws chars4096 chars4096_no_ws]

/-! ## Claims C2, C3 and C10 -/

/-- C2 counterexample: on the 4096-character single-word input, `split_string`
emits a piece of length exactly 4096 (preceded by an empty piece), so it is
not the case that every output piece has length strictly below 4096. -/
theorem C2_counterexample :
    (split_string chars4096).map List.length = [0, 4096] ∧
    ¬ (∀ out ∈ split_string chars4096, out.length < 4096) := by
  constructor
  · rw [split_string_chars4096]
    simp only [List.map_cons, List.map_nil, List.length_nil, chars4096,
      List.length_replicate]
  · intro hall
    have h := hall chars4096
      (by rw [split_string_chars4096]; exact List.Mem.tail _ (List.Mem.head _))
    simp only [chars4096, List.length_replicate] at h
    omega

/-- C2 (amended): provided every whitespace-delimited word of the input has
length at most 4096, every piece produced by `split_string` has length at
most 4096.  The bound 4096 is attained (see the counterexample), so the
claimed strict bound of 4096 does not hold; and a single word longer than
4096 characters is emitted as one oversized piece, hence the proviso. -/
theorem C2_split_string_length_le (s : List Char)
    (hwords : ∀ w ∈ pySplit s, w.length ≤ 4096) :
    ∀ out ∈ split_string s, out.length ≤ 4096 := by
  intro out hout
  rw [split_string] at hout
  by_cases hlen : s.length < 4096
  · rw [if_pos hlen] at hout
    simp at hout
    subst hout
    omega
  · rw [if_neg hlen] at hout
    exact splitLoop_length (pySplit s) [] hwords (by simp) out hout

/-- C2 witness: the amended bound instantiated on the concrete input "hi". -/
theorem C2_witness :
    (∀ w ∈ pySplit charsHi, w.length ≤ 4096) ∧
    (∀ out ∈ split_string charsHi, out.length ≤ 4096) :=
  ⟨by simp [charsHi, pySplit, isWs, List.takeWhile, List.dropWhile],
   C2_split_string_length_le charsHi
     (by simp [charsHi, pySplit, isWs, List.takeWhile, List.dropWhile])⟩

/-- C3 counterexample: on the 4096-character single-word input, the
space-joined concatenation of the pieces emitted by `split_string` is the
input with one leading space added (the first emitted piece is empty), which
differs from the input with its whitespace runs collapsed — even after
collapsing the whitespace of the concatenation as well.  Character-exact
reconstruction modulo collapsing therefore fails. -/
theorem C3_counterexample :
    sjoin (split_string chars4096) ≠ collapseWs chars4096 ∧
    collapseWs (sjoin (split_string chars4096)) ≠ collapseWs chars4096 := by
  have h1 : sjoin (split_string chars4096) = ' ' :: chars4096 := by
    rw [split_string_chars4096]; rfl
  have h2 : collapseWs chars4096 = chars4096 :=
    collapseWs_no_ws chars4096 chars4096_no_ws
  constructor
  · rw [h1, h2]
    intro heq
    have hl := congrArg List.length heq
    simp only [List.length_cons, chars4096, List.length_replicate] at hl
    omega
  · rw [h1, h2, collapseWs_sp_chars4096]
    intro heq
    have hl := congrArg List.length heq
    simp only [List.length_cons, chars4096, List.length_replicate] at hl
    omega

/-- C3 (amended): `split_string` never splits a word across two output pieces
and keeps the words in their original order — the words of the pieces,
concatenated in piece order, are exactly the words of the input — and the
concatenation of the pieces with single spaces reconstructs the input up to
whitespace normalisation: splitting it on whitespace recovers exactly the
input's words.  (Character-exact reconstruction fails only by the introduced
leading space and leading empty piece of the counterexample.) -/
theorem C3_split_string_words (s : List Char) :
    (split_string s).flatMap pySplit = pySplit s ∧
    pySplit (sjoin (split_string s)) = pySplit s := by
  have hflat : (split_string s).flatMap pySplit = pySplit s := by
    rw [split_string]
    by_cases hlen : s.length < 4096
    · rw [if_pos hlen]
      simp only [List.flatMap_cons, List.flatMap_nil, List.append_nil]
    · rw [if_neg hlen, splitLoop_words (pySplit s) [] (fun w hw => pySplit_good w hw),
        pySplit_nil, List.nil_append]
  exact ⟨hflat, by rw [pySplit_sjoin, hflat]⟩

/-- C10: the list-returning `split_string` of `bob_bot.py` and the generator
version in `utils/utils.py` produce the same sequence of output pieces on
every input string. -/
theorem C10_split_string_eq (s : List Char) :
    split_string s = split_string_utils s := by
  rw [split_string, split_string_utils]
  by_cases hlen : s.length < 4096
  · rw [if_pos hlen, if_pos hlen]
  · rw [if_neg hlen, if_neg hlen, splitLoop_eq_utilsLoop]

/-! ## Lemmas about `detect_silence` -/

theorem absWindowSums_replicate_zero (n sr : Nat) :
    absWindowSums (List.replicate n (0 : ℚ)) sr =
      List.replicate ((n + sr - 1) / sr) 0 := by
  rw [absWindowSums, List.length_replicate]
  refine List.eq_replicate_iff.mpr ⟨by simp, ?_⟩
  intro b hb
  rcases List.mem_map.mp hb with ⟨s, hs, rfl⟩
  rw [List.drop_replicate, List.take_replicate, List.map_replicate, abs_zero,
    List.sum_replicate, smul_zero]

theorem takeWhile_replicate_pos {α : Type} (p : α → Bool) (a : α)
    (h : p a = true) (k : Nat) :
    (List.replicate k a).takeWhile p = List.replicate k a :=
  List.takeWhile_eq_self_iff.mpr
    (fun x hx => by rw [List.eq_of_mem_replicate hx]; exact h)

theorem trailingSilent_replicate (k : Nat) {t : ℚ} (ht : 0 < t) :
    trailingSilent (List.replicate k 0) t = k := by
  rw [trailingSilent, List.reverse_replicate,
    takeWhile_replicate_pos (fun s => decide (s < t)) 0 (decide_eq_true ht) k,
    List.length_replicate]

/-! ## Claims C7 and C8 -/

/-- C7 counterexample: on the empty audio buffer `detect_silence` returns a
result — the pair `(0, 0.0)` — rather than raising any error (there is no
`InvalidInputError` anywhere in the sources). -/
theorem C7_counterexample :
    detect_silence [] 22050 70 = Except.ok (0, 0) ∧
    ∀ e, detect_silence [] 22050 70 ≠ Except.error e := by
  constructor
  · simp [detect_silence, trailingSilent, absWindowSums]
  · intro e h
    rw [detect_silence, if_neg (by omega)] at h
    exact Except.noConfusion h

/-- C7 (amended): for every nonzero sample rate and every threshold,
`detect_silence` on the empty buffer returns the pair `(0, 0)` — zero silent
windows and zero duration — instead of raising an error. -/
theorem C7_empty_returns (sr : Nat) (t : ℚ) (h : sr ≠ 0) :
    detect_silence [] sr t = Except.ok (0, 0) := by
  have h1 : absWindowSums [] sr = [] := by
    rw [absWindowSums, List.length_nil, Nat.div_eq_of_lt (by omega)]
    rfl
  rw [detect_silence, if_neg h, h1]
  have h2 : trailingSilent [] t = 0 := rfl
  rw [h2]
  norm_num

/-- C7 witness: the amended behaviour at the concrete rate 22050 and the
default threshold 70. -/
theorem C7_witness :
    (22050 ≠ 0) ∧ detect_silence [] 22050 70 = Except.ok (0, 0) :=
  ⟨by omega, C7_empty_returns 22050 70 (by omega)⟩

/-- C8 counterexample: an all-zero buffer of 5 samples at 2 samples/second
has duration d = 2.5 s; the detector (window duration 1 s) returns 3 silent
windows — it also counts the trailing partial window — while the claimed
value `⌊d / window_size⌋` is 2. -/
theorem C8_counterexample :
    detect_silence (List.replicate 5 0) 2 70 = Except.ok (3, 5 / 2) ∧
    (3 : ℤ) ≠ ⌊((5 : ℚ) / 2) / windowSizeSeconds⌋ := by
  constructor
  · norm_num [detect_silence, trailingSilent, absWindowSums, List.range']
  · norm_num [windowSizeSeconds]

/-- C8 (amended): on an all-zero buffer of `n` samples at nonzero rate `sr`
(duration `d = n / sr` seconds) and any positive threshold, `detect_silence`
returns `⌈n / sr⌉ = ⌈d / windowSize⌉` silent windows — the total window
count, including a trailing partial window — together with the duration `d`.
The claimed `⌊d / windowSize⌋` undercounts whenever `sr` does not divide `n`. -/
theorem C8_all_zero_count (n sr : Nat) (t : ℚ) (hsr : sr ≠ 0) (ht : 0 < t) :
    detect_silence (List.replicate n 0) sr t =
      Except.ok ((n + sr - 1) / sr, (n : ℚ) / (sr : ℚ)) := by
  rw [detect_silence, if_neg hsr, absWindowSums_replicate_zero,
    trailingSilent_replicate _ ht, List.length_replicate]

/-- C8 witness: the amended count at the concrete all-zero buffer of the
counterexample: 5 samples at 2 samples/second give ⌈5/2⌉ = 3 windows. -/
theorem C8_witness :
    (2 ≠ 0) ∧ ((0 : ℚ) < 70) ∧
    detect_silence (List.replicate 5 0) 2 70 = Except.ok (3, 5 / 2) := by
  refine ⟨by omega, by norm_num, ?_⟩
  rw [C8_all_zero_count 5 2 70 (by omega) (by norm_num)]
  norm_num

/-! ## Lemmas about binary64 rounding -/

theorem le_roundNE (x : ℚ) : ⌊x⌋ ≤ roundNE x := by
  rw [roundNE]
  repeat' split
  all_goals omega

theorem roundNE_le (x : ℚ) : roundNE x ≤ ⌊x⌋ + 1 := by
  rw [roundNE]
  repeat' split
  all_goals omega

theorem roundNE_intCast (m : ℤ) : roundNE (m : ℚ) = m := by
  rw [roundNE, Int.fract_intCast, if_pos (by norm_num), Int.floor_intCast]

/-- The three branches of `roundNE`, as equations. -/
theorem roundNE_of_lt {x : ℚ} (h : Int.fract x < 1 / 2) : roundNE x = ⌊x⌋ := by
  rw [roundNE, if_pos h]

theorem roundNE_of_gt {x : ℚ} (h : 1 / 2 < Int.fract x) : roundNE x = ⌊x⌋ + 1 := by
  rw [roundNE, if_neg (by linarith), if_pos h]

theorem roundNE_of_tie {x : ℚ} (h : Int.fract x = 1 / 2) :
    roundNE x = if ⌊x⌋ % 2 = 0 then ⌊x⌋ else ⌊x⌋ + 1 := by
  rw [roundNE, if_neg (by rw [h]; norm_num), if_neg (by rw [h]; norm_num)]

/-- Rounding to nearest with a fixed tie rule is monotone. -/
theorem roundNE_mono {x y : ℚ} (h : x ≤ y) : roundNE x ≤ roundNE y := by
  have hf := Int.floor_mono h
  rcases lt_or_eq_of_le hf with hlt | heq
  · have h1 := roundNE_le x
    have h2 := le_roundNE y
    omega
  · have hfr : Int.fract x ≤ Int.fract y := by
      have hfx : Int.fract x = x - ⌊x⌋ := rfl
      have hfy : Int.fract y = y - ⌊y⌋ := rfl
      rw [hfx, hfy, ← heq]
      linarith
    by_cases h1 : Int.fract x < 1 / 2
    · rw [roundNE_of_lt h1]
      have := le_roundNE y
      omega
    · by_cases h2 : 1 / 2 < Int.fract x
      · have h2y : 1 / 2 < Int.fract y := lt_of_lt_of_le h2 hfr
        rw [roundNE_of_gt h2, roundNE_of_gt h2y, heq]
      · have hx2 : Int.fract x = 1 / 2 := le_antisymm (not_lt.mp h2) (not_lt.mp h1)
        by_cases h2y : 1 / 2 < Int.fract y
        · rw [roundNE_of_tie hx2, roundNE_of_gt h2y]
          split
          all_goals omega
        · have hy2 : Int.fract y = 1 / 2 :=
            le_antisymm (not_lt.mp h2y) (by rw [← hx2]; exact hfr)
          rw [roundNE_of_tie hx2, roundNE_of_tie hy2, heq]

theorem roundNE_eq_of_lt_half (m : ℤ) (x : ℚ) (h1 : (m : ℚ) ≤ x)
    (h2 : x < (m : ℚ) + 1 / 2) : roundNE x = m := by
  have hfl : ⌊x⌋ = m := Int.floor_eq_iff.mpr ⟨h1, by linarith⟩
  have hfr : Int.fract x < 1 / 2 := by
    have hx : Int.fract x = x - ⌊x⌋ := rfl
    rw [hx, hfl]
    linarith
  rw [roundNE, if_pos hfr, hfl]

theorem two_zpow_log_le {q : ℚ} (hq : 0 < q) : (2 : ℚ) ^ Int.log 2 q ≤ q := by
  have h := Int.zpow_log_le_self (show (1 : ℕ) < 2 by norm_num) hq
  simpa using h

theorem lt_two_zpow_succ_log {q : ℚ} : q < (2 : ℚ) ^ (Int.log 2 q + 1) := by
  have h := Int.lt_zpow_succ_log_self (show (1 : ℕ) < 2 by norm_num) q
  simpa using h

/-- Uniqueness of the binary exponent: the log is determined by bracketing
between consecutive powers of two. -/
theorem int_log_two_eq {q : ℚ} {e : ℤ} (h1 : (2 : ℚ) ^ e ≤ q)
    (h2 : q < (2 : ℚ) ^ (e + 1)) : Int.log 2 q = e := by
  have hq : 0 < q := lt_of_lt_of_le (zpow_pos (by norm_num) e) h1
  have hle : e ≤ Int.log 2 q := by
    have h := (Int.zpow_le_iff_le_log (show (1 : ℕ) < 2 by norm_num) hq).mp
      (by push_cast; exact h1)
    exact h
  have hlt : Int.log 2 q < e + 1 := by
    have h := (Int.lt_zpow_iff_log_lt (show (1 : ℕ) < 2 by norm_num) hq).mp
      (by push_cast; exact h2)
    exact h
  omega

theorem int_log_two_nat {q : ℚ} (k : ℕ) (h1 : (2 : ℚ) ^ k ≤ q)
    (h2 : q < (2 : ℚ) ^ (k + 1)) : Int.log 2 q = (k : ℤ) := by
  apply int_log_two_eq
  · rw [zpow_natCast]
    exact h1
  · rw [show ((k : ℤ) + 1) = ((k + 1 : ℕ) : ℤ) by push_cast; ring, zpow_natCast]
    exact h2

theorem int_log_two_neg {q : ℚ} (k : ℕ) (h1 : ((2 : ℚ) ^ (k + 1))⁻¹ ≤ q)
    (h2 : q < ((2 : ℚ) ^ k)⁻¹) : Int.log 2 q = -(k : ℤ) - 1 := by
  apply int_log_two_eq
  · rw [show (-(k : ℤ) - 1) = -((k + 1 : ℕ) : ℤ) by push_cast; ring, zpow_neg,
      zpow_natCast]
    exact h1
  · rw [show (-(k : ℤ) - 1 + 1) = -(k : ℤ) by ring, zpow_neg, zpow_natCast]
    exact h2

/-- Unfold `fl64` at a known non-negative exponent, with natural-number
powers only. -/
theorem fl64_eval_pos {q : ℚ} (k : ℕ) (hq : 0 < q) (hk : k ≤ 52)
    (hlog : Int.log 2 q = (k : ℤ)) :
    fl64 q = (roundNE (q * 2 ^ (52 - k)) : ℚ) / 2 ^ (52 - k) := by
  rw [fl64, if_neg (by linarith), hlog]
  have he : (k : ℤ) - 52 = -((52 - k : ℕ) : ℤ) := by omega
  rw [he, zpow_neg, zpow_natCast, div_eq_mul_inv, inv_inv, ← div_eq_mul_inv]

/-- Unfold `fl64` at a known negative exponent `-(k+1)`, with natural-number
powers only. -/
theorem fl64_eval_neg {q : ℚ} (k : ℕ) (hq : 0 < q)
    (hlog : Int.log 2 q = -(k : ℤ) - 1) :
    fl64 q = (roundNE (q * 2 ^ (k + 53)) : ℚ) / 2 ^ (k + 53) := by
  rw [fl64, if_neg (by linarith), hlog]
  have he : -(k : ℤ) - 1 - 52 = -((k + 53 : ℕ) : ℤ) := by push_cast; omega
  rw [he, zpow_neg, zpow_natCast, div_eq_mul_inv, inv_inv, ← div_eq_mul_inv]

/-- `fl64` of a positive rational lies between the bracketing powers of two. -/
theorem fl64_bounds {q : ℚ} (hq : 0 < q) :
    (2 : ℚ) ^ Int.log 2 q ≤ fl64 q ∧ fl64 q ≤ (2 : ℚ) ^ (Int.log 2 q + 1) := by
  have h2e : (0 : ℚ) < 2 ^ (Int.log 2 q - 52) := zpow_pos (by norm_num) _
  have hsplit : (2 : ℚ) ^ Int.log 2 q =
      2 ^ (Int.log 2 q - 52) * 2 ^ (52 : ℤ) := by
    rw [← zpow_add₀ (by norm_num : (2 : ℚ) ≠ 0)]
    ring_nf
  have hsplit1 : (2 : ℚ) ^ (Int.log 2 q + 1) =
      2 ^ (Int.log 2 q - 52) * 2 ^ (53 : ℤ) := by
    rw [← zpow_add₀ (by norm_num : (2 : ℚ) ≠ 0)]
    ring_nf
  set x := q / 2 ^ (Int.log 2 q - 52) with hx
  have hxlo : (2 : ℚ) ^ (52 : ℤ) ≤ x := by
    rw [hx, le_div_iff₀ h2e]
    calc 2 ^ (52 : ℤ) * 2 ^ (Int.log 2 q - 52)
        = (2 : ℚ) ^ Int.log 2 q := by rw [mul_comm, ← hsplit]
      _ ≤ q := two_zpow_log_le hq
  have hxhi : x < (2 : ℚ) ^ (53 : ℤ) := by
    rw [hx, div_lt_iff₀ h2e]
    calc q < (2 : ℚ) ^ (Int.log 2 q + 1) := lt_two_zpow_succ_log
      _ = 2 ^ (53 : ℤ) * 2 ^ (Int.log 2 q - 52) := by rw [mul_comm, ← hsplit1]
  have hrlo : ((2 : ℚ) ^ (52 : ℤ)) ≤ (roundNE x : ℚ) := by
    have hfl : (4503599627370496 : ℤ) ≤ ⌊x⌋ := by
      apply Int.le_floor.mpr
      calc ((4503599627370496 : ℤ) : ℚ) = 2 ^ (52 : ℤ) := by norm_num
        _ ≤ x := hxlo
    have := le_roundNE x
    calc ((2 : ℚ) ^ (52 : ℤ)) = ((4503599627370496 : ℤ) : ℚ) := by norm_num
      _ ≤ (roundNE x : ℚ) := by exact_mod_cast le_trans hfl this
  have hrhi : (roundNE x : ℚ) ≤ (2 : ℚ) ^ (53 : ℤ) := by
    have hfl : ⌊x⌋ < (9007199254740992 : ℤ) := by
      apply Int.floor_lt.mpr
      calc x < (2 : ℚ) ^ (53 : ℤ) := hxhi
        _ = ((9007199254740992 : ℤ) : ℚ) := by norm_num
    have := roundNE_le x
    calc (roundNE x : ℚ) ≤ ((9007199254740992 : ℤ) : ℚ) := by
          exact_mod_cast le_trans this (by omega)
      _ = (2 : ℚ) ^ (53 : ℤ) := by norm_num
  have hfl64 : fl64 q = (roundNE x : ℚ) * 2 ^ (Int.log 2 q - 52) := by
    rw [fl64, if_neg (by linarith)]
  constructor
  · rw [hfl64, hsplit, mul_comm]
    exact mul_le_mul_of_nonneg_right hrlo (le_of_lt h2e)
  · rw [hfl64, hsplit1, mul_comm ((2 : ℚ) ^ (Int.log 2 q - 52)) _]
    exact mul_le_mul_of_nonneg_right hrhi (le_of_lt h2e)

theorem fl64_pos {q : ℚ} (hq : 0 < q) : 0 < fl64 q :=
  lt_of_lt_of_le (zpow_pos (by norm_num) _) (fl64_bounds hq).1

/-- Correct rounding is monotone. -/
theorem fl64_mono {q1 q2 : ℚ} (h0 : 0 < q1) (h : q1 ≤ q2) :
    fl64 q1 ≤ fl64 q2 := by
  have h02 : 0 < q2 := lt_of_lt_of_le h0 h
  have hlog : Int.log 2 q1 ≤ Int.log 2 q2 := Int.log_mono_right h0 h
  rcases lt_or_eq_of_le hlog with hlt | heq
  · calc fl64 q1 ≤ (2 : ℚ) ^ (Int.log 2 q1 + 1) := (fl64_bounds h0).2
      _ ≤ (2 : ℚ) ^ Int.log 2 q2 := by
          apply zpow_le_zpow_right₀ (by norm_num)
          omega
      _ ≤ fl64 q2 := (fl64_bounds h02).1
  · have h2e : (0 : ℚ) < 2 ^ (Int.log 2 q1 - 52) := zpow_pos (by norm_num) _
    have hdiv : q1 / 2 ^ (Int.log 2 q1 - 52) ≤ q2 / 2 ^ (Int.log 2 q1 - 52) :=
      (div_le_div_iff_of_pos_right h2e).mpr h
    rw [fl64, if_neg (by linarith), fl64, if_neg (by linarith), ← heq]
    exact mul_le_mul_of_nonneg_right
      (by exact_mod_cast roundNE_mono hdiv) (le_of_lt h2e)

theorem fl64_one : fl64 1 = 1 := by
  have hlog : Int.log 2 (1 : ℚ) = ((0 : ℕ) : ℤ) := Int.log_one_right 2
  rw [fl64_eval_pos 0 (by norm_num) (by omega) hlog,
    roundNE_eq_of_lt_half 4503599627370496 _ (by norm_num) (by norm_num)]
  norm_num

theorem fl64_100 : fl64 100 = 100 := by
  have hlog : Int.log 2 (100 : ℚ) = ((6 : ℕ) : ℤ) :=
    int_log_two_nat 6 (by norm_num) (by norm_num)
  rw [fl64_eval_pos 6 (by norm_num) (by omega) hlog,
    roundNE_eq_of_lt_half 7036874417766400 _ (by norm_num) (by norm_num)]
  norm_num

/-- The progress percentage after the final chunk is exactly 100: `n/n`
rounds to exactly 1 and `1 * 100` to exactly 100. -/
theorem pyPct_last {n : Nat} (hn : n ≠ 0) : pyPct n n = 100 := by
  have hq : ((n : ℚ) / (n : ℚ)) = 1 :=
    div_self (by exact_mod_cast hn)
  rw [pyPct, hq, fl64_one, one_mul, fl64_100,
    show ⌊(100 : ℚ)⌋ = 100 from by norm_num]
  rfl

/-- The emitted percentages are monotone: exact division is monotone, each
rounding step is monotone, and the final truncation is monotone. -/
theorem pyPct_mono {n : Nat} (hn : n ≠ 0) {i j : Nat} (hi : 1 ≤ i)
    (hij : i ≤ j) : pyPct i n ≤ pyPct j n := by
  have hnq : (0 : ℚ) < (n : ℚ) := by
    exact_mod_cast Nat.pos_of_ne_zero hn
  have h1 : (0 : ℚ) < (i : ℚ) / (n : ℚ) :=
    div_pos (by exact_mod_cast hi) hnq
  have h2 : (i : ℚ) / (n : ℚ) ≤ (j : ℚ) / (n : ℚ) :=
    (div_le_div_iff_of_pos_right hnq).mpr (by exact_mod_cast hij)
  have h3 := fl64_mono h1 h2
  have h4 : (0 : ℚ) < fl64 ((i : ℚ) / (n : ℚ)) * 100 := by
    have := fl64_pos h1
    positivity
  have h6 : fl64 ((i : ℚ) / (n : ℚ)) * 100 ≤ fl64 ((j : ℚ) / (n : ℚ)) * 100 :=
    mul_le_mul_of_nonneg_right h3 (by norm_num)
  have h7 := fl64_mono h4 h6
  exact Int.toNat_le_toNat (Int.floor_mono h7)

/-! ### Concrete binary64 evaluations -/

/-- `2/3` rounds to the binary64 value `6004799503160661 * 2^-53`. -/
theorem fl64_two_thirds : fl64 (2 / 3) = 6004799503160661 / 2 ^ 53 := by
  have hlog : Int.log 2 ((2 : ℚ) / 3) = -((0 : ℕ) : ℤ) - 1 :=
    int_log_two_neg 0 (by norm_num) (by norm_num)
  rw [fl64_eval_neg 0 (by norm_num) hlog,
    show ((2 : ℚ) / 3) * 2 ^ (0 + 53) = 18014398509481984 / 3 by norm_num,
    roundNE_eq_of_lt_half 6004799503160661 _ (by norm_num) (by norm_num)]
  norm_num

/-- The binary64 product `fl64(2/3) * 100` rounds to
`4691249611844266 * 2^-46 ≈ 66.66666666666666`. -/
theorem fl64_two_thirds_step :
    fl64 ((6004799503160661 / 2 ^ 53 : ℚ) * 100) = 4691249611844266 / 2 ^ 46 := by
  have hlog : Int.log 2 ((6004799503160661 / 2 ^ 53 : ℚ) * 100) = ((6 : ℕ) : ℤ) :=
    int_log_two_nat 6 (by norm_num) (by norm_num)
  rw [fl64_eval_pos 6 (by norm_num) (by omega) hlog,
    show ((6004799503160661 / 2 ^ 53 : ℚ) * 100) * 2 ^ (52 - 6) =
      150119987579016525 / 32 by norm_num,
    roundNE_eq_of_lt_half 4691249611844266 _ (by norm_num) (by norm_num)]
  norm_num

/-- The percentage the code emits after chunk 2 of 3: binary64 evaluation of
`int((2/3)*100)` gives 66 (the exact value 66.66… truncates to 66). -/
theorem pyPct_2_3 : pyPct 2 3 = 66 := by
  rw [pyPct, show (((2 : ℕ) : ℚ) / ((3 : ℕ) : ℚ)) = 2 / 3 by norm_num,
    fl64_two_thirds, fl64_two_thirds_step,
    show ⌊(4691249611844266 / 2 ^ 46 : ℚ)⌋ = 66 from
      Int.floor_eq_iff.mpr (by norm_num)]
  rfl

/-- `29/100` rounds to the binary64 value `5224175567749775 * 2^-54`. -/
theorem fl64_29_100 : fl64 (29 / 100) = 5224175567749775 / 2 ^ 54 := by
  have hlog : Int.log 2 ((29 : ℚ) / 100) = -((1 : ℕ) : ℤ) - 1 :=
    int_log_two_neg 1 (by norm_num) (by norm_num)
  rw [fl64_eval_neg 1 (by norm_num) hlog,
    show ((29 : ℚ) / 100) * 2 ^ (1 + 53) = 130604389193744384 / 25 by norm_num,
    roundNE_eq_of_lt_half 5224175567749775 _ (by norm_num) (by norm_num)]
  norm_num

/-- The binary64 product `fl64(29/100) * 100` rounds to
`8162774324609023 * 2^-48 ≈ 28.999999999999996`, one unit below `29 * 2^48`. -/
theorem fl64_29_100_step :
    fl64 ((5224175567749775 / 2 ^ 54 : ℚ) * 100) = 8162774324609023 / 2 ^ 48 := by
  have hlog : Int.log 2 ((5224175567749775 / 2 ^ 54 : ℚ) * 100) = ((4 : ℕ) : ℤ) :=
    int_log_two_nat 4 (by norm_num) (by norm_num)
  rw [fl64_eval_pos 4 (by norm_num) (by omega) hlog,
    show ((5224175567749775 / 2 ^ 54 : ℚ) * 100) * 2 ^ (52 - 4) =
      130604389193744375 / 16 by norm_num,
    roundNE_eq_of_lt_half 8162774324609023 _ (by norm_num) (by norm_num)]
  norm_num

/-- The floating-point undercut the spec's formula misses: after chunk 29 of
100 the code emits `int((29/100)*100) = 28` — the binary64 product is just
below 29 — while the exact floor `⌊29/100 * 100⌋` is 29. -/
theorem pyPct_29_100 : pyPct 29 100 = 28 ∧ 29 * 100 / 100 = 29 := by
  constructor
  · rw [pyPct, show (((29 : ℕ) : ℚ) / ((100 : ℕ) : ℚ)) = 29 / 100 by norm_num,
      fl64_29_100, fl64_29_100_step,
      show ⌊(8162774324609023 / 2 ^ 48 : ℚ)⌋ = 28 from
        Int.floor_eq_iff.mpr (by norm_num)]
    rfl
  · norm_num

/-! ## Lemmas about the `stt` handler -/

/-- Every event delivered by the per-chunk loop is a progress edit. -/
theorem sttLoop_events (env : Env) (n : Nat) :
    ∀ (l : List Nat) (acc : List Char), ∀ ev ∈ (sttLoop env n l acc).1,
      ∃ p, ev = Event.progressEdit p := by
  intro l
  induction l with
  | nil => intro acc ev hev; simp [sttLoop] at hev
  | cons i rest ih =>
    intro acc ev hev
    rcases htr : env.transcribe i with e | t
    · simp [sttLoop, htr] at hev
    · rcases hed : env.editErr i with _ | e
      · simp only [sttLoop, htr, hed, List.mem_cons] at hev
        rcases hev with rfl | hev
        · exact ⟨_, rfl⟩
        · exact ih (acc ++ t) ev hev
      · simp [sttLoop, htr, hed] at hev

/-- When every chunk transcribes and every progress edit succeeds, the loop
delivers exactly one progress edit per chunk — `int((i+1)/n*100)` percent
after chunk `i` — and returns a transcript. -/
theorem sttLoop_ok (env : Env) (n : Nat) :
    ∀ (l : List Nat) (acc : List Char),
      (∀ i ∈ l, (∃ t, env.transcribe i = Except.ok t) ∧ env.editErr i = none) →
      (sttLoop env n l acc).1 =
        l.map (fun i => Event.progressEdit (pyPct (i + 1) n)) ∧
      ∃ t, (sttLoop env n l acc).2 = Except.ok t := by
  intro l
  induction l with
  | nil => intro acc _; exact ⟨rfl, acc, rfl⟩
  | cons i rest ih =>
    intro acc h
    obtain ⟨⟨t, htr⟩, hed⟩ := h i (by simp)
    have ihr := ih (acc ++ t) (fun j hj => h j (List.mem_cons_of_mem _ hj))
    refine ⟨?_, ?_⟩
    · simp only [sttLoop, htr, hed, List.map_cons]
      rw [ihr.1]
    · simp only [sttLoop, htr, hed]
      exact ihr.2

/-- When every outbound piece send succeeds, piece delivery raises nothing. -/
theorem deliverPieces_ok (env : Env) (hp : ∀ k, env.pieceErr k = none) :
    ∀ (ps : List (List Char)) (k : Nat), (deliverPieces env ps k).2 = none := by
  intro ps
  induction ps with
  | nil => intro k; rfl
  | cons p ps ih => intro k; simp [deliverPieces, hp k, ih (k + 1)]

/-- Every event delivered by piece delivery is a transcript piece. -/
theorem deliverPieces_events (env : Env) :
    ∀ (ps : List (List Char)) (k : Nat), ∀ ev ∈ (deliverPieces env ps k).1,
      ∃ q, ev = Event.transcriptPiece q := by
  intro ps
  induction ps with
  | nil => intro k ev hev; simp [deliverPieces] at hev
  | cons p ps ih =>
    intro k ev hev
    rcases hpe : env.pieceErr k with _ | e
    · simp only [deliverPieces, hpe, List.mem_cons] at hev
      rcases hev with rfl | hev
      · exact ⟨_, rfl⟩
      · exact ih (k + 1) ev hev
    · simp [deliverPieces, hpe] at hev

theorem editPcts_append (a b : List Event) :
    editPcts (a ++ b) = editPcts a ++ editPcts b := by
  simp [editPcts, List.filterMap_append]

theorem editPcts_map (g : Nat → Nat) (l : List Nat) :
    editPcts (l.map fun i => Event.progressEdit (g i)) = l.map g := by
  induction l with
  | nil => rfl
  | cons i rest ih => simp only [List.map_cons, editPcts, List.filterMap_cons] at ih ⊢; rw [ih]

theorem editPcts_pieces (env : Env) (ps : List (List Char)) (k : Nat) :
    editPcts (deliverPieces env ps k).1 = [] := by
  rw [editPcts, List.filterMap_eq_nil_iff]
  intro ev hev
  obtain ⟨q, rfl⟩ := deliverPieces_events env ps k ev hev
  rfl

/-- The events of a fully successful `try` body: the progress-edit
percentages it delivers are exactly `int((i+1)/n*100)` for `i = 0, …, n-1`,
in order, and nothing reaches the `except` clause. -/
theorem sttTry_ok (env : Env) (n : Nat)
    (hg : env.getChunks = Except.ok n) (hs : env.startErr = none)
    (hok : ∀ i ∈ List.range n,
      (∃ t, env.transcribe i = Except.ok t) ∧ env.editErr i = none)
    (hd : env.deleteErr = none) (hp : ∀ k, env.pieceErr k = none) :
    (sttTry env).2 = none ∧
    editPcts (sttTry env).1 = (List.range n).map (fun i => pyPct (i + 1) n) := by
  obtain ⟨hev, t, ht⟩ := sttLoop_ok env n (List.range n) [] hok
  have hdp := deliverPieces_ok env hp (split_string t) 0
  constructor
  · simp only [sttTry, hg, hs, ht, hd]
    exact hdp
  · simp only [sttTry, hg, hs, ht, hd]
    rw [show Event.progressStart 0 :: (sttLoop env n (List.range n) []).1 ++
          Event.progressDelete :: (deliverPieces env (split_string t) 0).1 =
        (Event.progressStart 0 :: (sttLoop env n (List.range n) []).1) ++
          (Event.progressDelete :: (deliverPieces env (split_string t) 0).1) from rfl]
    rw [editPcts_append, hev]
    simp only [editPcts, List.filterMap_cons]
    rw [← editPcts, ← editPcts, editPcts_map, editPcts_pieces]
    simp

/-- If the download succeeds and nothing reaches the `except` clause, the
handler delivers exactly the events of the `try` body. -/
theorem stt_of_ok (env : Env) (hdl : env.downloadOk = true)
    (h2 : (sttTry env).2 = none) : stt env = (sttTry env).1 := by
  rw [stt, if_pos hdl]
  rw [h2]

/-- A failure inside the `try` body before piece delivery leaves no error
message and no transcript piece among the events delivered by the body. -/
theorem sttTry_fail_counts (env : Env) (hd : env.deleteErr = none)
    (hp : ∀ k, env.pieceErr k = none) (e : String)
    (hf : (sttTry env).2 = some e) :
    countErrors (sttTry env).1 = 0 ∧ countPieces (sttTry env).1 = 0 := by
  rcases hg : env.getChunks with eg | n
  · simp only [sttTry, hg]
    exact ⟨rfl, rfl⟩
  · rcases hs : env.startErr with _ | es
    · rcases ht : (sttLoop env n (List.range n) []).2 with el | t
      · simp only [sttTry, hg, hs, ht]
        have hall : ∀ ev ∈ Event.progressStart 0 :: (sttLoop env n (List.range n) []).1,
            isErrorMsg ev = false ∧ isPiece ev = false := by
          intro ev hev
          rcases List.mem_cons.mp hev with rfl | hev
          · exact ⟨rfl, rfl⟩
          · obtain ⟨p, rfl⟩ := sttLoop_events env n (List.range n) [] ev hev
            exact ⟨rfl, rfl⟩
        constructor
        · rw [countErrors, List.countP_eq_zero]
          intro a ha
          simp [(hall a ha).1]
        · rw [countPieces, List.countP_eq_zero]
          intro a ha
          simp [(hall a ha).2]
      · exfalso
        have hdp := deliverPieces_ok env hp (split_string t) 0
        simp only [sttTry, hg, hs, ht, hd] at hf
        rw [hdp] at hf
        exact Option.noConfusion hf
    · simp only [sttTry, hg, hs]
      exact ⟨rfl, rfl⟩

/-! ## Claims C1, C4, C5, C6 and C9 -/

/-- C1 counterexample: when the voice-message download fails, the handler
delivers no message at all — in particular not the claimed single error
message — because the download sits before the `try` block and the exception
propagates out of the handler. -/
theorem C1_counterexample :
    stt envDownloadFail = [] ∧ countErrors (stt envDownloadFail) ≠ 1 := by
  decide

/-- C1 (amended): an exception during the Chunking or Transcribing phase —
anything that reaches the `except` clause while the progress-message deletion
and the piece sends are themselves sound — produces exactly one user-visible
error message, carrying the error description, and no transcript piece; an
exception during the Downloading phase, by contrast, propagates out of the
handler and no message at all is delivered. -/
theorem C1_error_handling (env : Env) :
    (env.downloadOk = false → stt env = []) ∧
    (env.downloadOk = true → env.finalReplyOk = true → env.deleteErr = none →
      (∀ k, env.pieceErr k = none) → ∀ e, (sttTry env).2 = some e →
      countErrors (stt env) = 1 ∧ countPieces (stt env) = 0 ∧
      Event.errorMsg e ∈ stt env) := by
  constructor
  · intro h
    rw [stt, if_neg (by simp [h])]
  · intro hdl hfr hd hp e hf
    obtain ⟨hce, hcp⟩ := sttTry_fail_counts env hd hp e hf
    have hrun : stt env = (sttTry env).1 ++ [Event.errorMsg e] := by
      simp [stt, hdl, hf, hfr]
    refine ⟨?_, ?_, ?_⟩
    · rw [hrun, countErrors, List.countP_append, ← countErrors, hce]
      rfl
    · rw [hrun, countPieces, List.countP_append, ← countPieces, hcp]
      rfl
    · rw [hrun]
      exact List.mem_append_right _ (List.Mem.head _)

/-- C1 witness: a failing `get_chunks` (Chunking phase) on an otherwise sound
environment yields exactly one error message, with its description, and no
transcript piece. -/
theorem C1_witness :
    countErrors (stt envChunkFail) = 1 ∧ countPieces (stt envChunkFail) = 0 ∧
    Event.errorMsg "chunking failed" ∈ stt envChunkFail :=
  (C1_error_handling envChunkFail).2 rfl rfl rfl (fun _ => rfl)
    "chunking failed" rfl

/-- C4: in a fully successful `n`-chunk run (`n ≥ 1`), the progress
percentages emitted by the `stt` loop — one per completed chunk — are
monotonically non-decreasing and the final one is 100. -/
theorem C4_progress_monotone (env : Env) (n : Nat) (hn : 1 ≤ n)
    (hdl : env.downloadOk = true)
    (hg : env.getChunks = Except.ok n) (hs : env.startErr = none)
    (hok : ∀ i ∈ List.range n,
      (∃ t, env.transcribe i = Except.ok t) ∧ env.editErr i = none)
    (hd : env.deleteErr = none) (hp : ∀ k, env.pieceErr k = none) :
    (editPcts (stt env)).Sorted (· ≤ ·) ∧
    (editPcts (stt env)).getLast? = some 100 ∧
    (editPcts (stt env)).length = n := by
  obtain ⟨h2, hpcts⟩ := sttTry_ok env n hg hs hok hd hp
  rw [stt_of_ok env hdl h2, hpcts]
  refine ⟨?_, ?_, by simp⟩
  · exact List.Pairwise.map _
      (fun a b hab => pyPct_mono (by omega) (by omega) (by omega))
      (List.pairwise_lt_range n)
  · obtain ⟨m, rfl⟩ : ∃ m, n = m + 1 := ⟨n - 1, by omega⟩
    rw [List.range_succ, List.map_append]
    simp only [List.map_cons, List.map_nil]
    rw [List.getLast?_concat, pyPct_last (Nat.succ_ne_zero m)]

/-- C4 witness: the property instantiated on a fully successful 2-chunk run. -/
theorem C4_witness :
    (editPcts (stt (okEnv 2))).Sorted (· ≤ ·) ∧
    (editPcts (stt (okEnv 2))).getLast? = some 100 ∧
    (editPcts (stt (okEnv 2))).length = 2 :=
  C4_progress_monotone (okEnv 2) 2 (by omega) rfl rfl rfl
    (fun _ _ => ⟨⟨['x'], rfl⟩, rfl⟩) rfl (fun _ => rfl)

/-- C5 counterexample: in a fully successful 3-chunk run the percentage
emitted after chunk 2 is the binary64 evaluation of `int(2/3*100)`, which is
66, not the claimed `round(2/3*100) = 67`: the code truncates, it does not
round to nearest. -/
theorem C5_counterexample :
    (editPcts (stt (okEnv 3))).get? 1 = some (pyPct 2 3) ∧
    pyPct 2 3 = 66 ∧ specRound 2 3 = 67 ∧
    (editPcts (stt (okEnv 3))).get? 1 ≠ some (specRound 2 3) := by
  have hrun : editPcts (stt (okEnv 3)) =
      (List.range 3).map (fun i => pyPct (i + 1) 3) := by
    obtain ⟨h2, hpcts⟩ := sttTry_ok (okEnv 3) 3 rfl rfl
      (fun _ _ => ⟨⟨['x'], rfl⟩, rfl⟩) rfl (fun _ => rfl)
    rw [stt_of_ok (okEnv 3) rfl h2, hpcts]
  have hget : (editPcts (stt (okEnv 3))).get? 1 = some (pyPct 2 3) := by
    rw [hrun]
    rfl
  refine ⟨hget, pyPct_2_3, by norm_num [specRound], ?_⟩
  rw [hget, pyPct_2_3]
  intro hcontra
  rw [show specRound 2 3 = 67 by norm_num [specRound]] at hcontra
  exact absurd (Option.some.inj hcontra) (by norm_num)

/-- C5 (amended): in a fully successful `n`-chunk run, the percentage emitted
after chunk `i` (for `i = 1, …, n`) is `int((i / n) * 100)` evaluated in IEEE
binary64 floating point (`pyPct i n`): the division and the multiplication
are correctly rounded and the result is truncated toward zero, not rounded.
The truncation usually equals `⌊(i / n) * 100⌋` but can fall one below it:
`pyPct 29 100 = 28` while the exact floor is 29 (see `pyPct_29_100`). -/
theorem C5_progress_binary64 (env : Env) (n : Nat)
    (hdl : env.downloadOk = true)
    (hg : env.getChunks = Except.ok n) (hs : env.startErr = none)
    (hok : ∀ i ∈ List.range n,
      (∃ t, env.transcribe i = Except.ok t) ∧ env.editErr i = none)
    (hd : env.deleteErr = none) (hp : ∀ k, env.pieceErr k = none) :
    editPcts (stt env) = (List.range n).map (fun i => pyPct (i + 1) n) := by
  obtain ⟨h2, hpcts⟩ := sttTry_ok env n hg hs hok hd hp
  rw [stt_of_ok env hdl h2, hpcts]

/-- C5 witness: the binary64 percentages of a fully successful 4-chunk run. -/
theorem C5_witness :
    editPcts (stt (okEnv 4)) = (List.range 4).map (fun i => pyPct (i + 1) 4) :=
  C5_progress_binary64 (okEnv 4) 4 rfl rfl rfl
    (fun _ _ => ⟨⟨['x'], rfl⟩, rfl⟩) rfl (fun _ => rfl)

/-- C6: a single-chunk run whose transcription succeeds but whose
progress-message edit raises is aborted by the edit failure — the handler
delivers the error message instead of the transcript, because the edit sits
inside the same `try` as the transcription.  This contradicts the spec's
requirement that a failed progress edit must not abort an otherwise
successful transcription. -/
theorem C6_edit_failure_aborts :
    stt envEditFail = [Event.progressStart 0, Event.errorMsg "edit failed"] ∧
    countPieces (stt envEditFail) = 0 ∧ countErrors (stt envEditFail) = 1 := by
  decide

/-- C9: the decode call of the `stt` handler passes no target sample rate to
`librosa.load`, so the audio is decoded at librosa's default rate of
22050 Hz, not at the 16000 Hz (`new_sample_rate`, line 46) the model
pipeline is told it receives. -/
theorem C9_decode_not_16k :
    librosaLoadRate sttDecodeRequest = 22050 ∧
    librosaLoadRate sttDecodeRequest ≠ new_sample_rate := by
  decide

end Thoth
